import Mathlib

/-!
Verification development for the UID Matcher repository
(question-to-UID matching and categorization engine).

The source of authority is the Python code under `src/`:
`reflex_app.py` (normalization, constant tables, thresholds),
`database.py` (reference-bank access), `config.py`.
The matching engine functions imported from `utils` (`run_uid_match`,
`categorize_survey_by_ami_structure`, `determine_identity_type`,
`contains_identity_info`) are not part of `src/`; where a claim depends on
them they are modelled from the spec, and such definitions carry a doc
comment starting with `Modelled from the spec:`.

Strings are embedded as `List Char`; Python `str` operations are embedded
ASCII-faithfully (`str.lower` is modelled on the ASCII range, which covers
every string constant appearing in the source tables).  Similarity scores
are embedded as rationals, so the threshold comparisons of the source are
exact.
-/

set_option maxRecDepth 8000

namespace UidMatcher

/-! ### Character classes -/

/-- Whitespace characters recognised by Python `str.strip`, `str.split`
and the regex class `\s` (ASCII range). -/
def isWsChar (c : Char) : Bool :=
  c = ' ' || c = '\t' || c = '\n' || c = '\r' || c = '\x0b' || c = '\x0c'

/-- Characters kept by `re.sub(r'[^\w\s]', '', text)` apart from
whitespace: the regex class `\w`, i.e. alphanumerics plus underscore
(ASCII range). -/
def isWordChar (c : Char) : Bool :=
  c.isAlphanum || c = '_'

/-- The character class named by the spec sentence "strip characters
outside alphanumerics and whitespace": alphanumerics only (no
underscore). -/
def isAlnumChar (c : Char) : Bool :=
  c.isAlphanum

/-- ASCII lower-casing of one character, as Python `str.lower` acts on
the ASCII range. -/
def lowerChar (c : Char) : Char :=
  if 65 ≤ c.toNat ∧ c.toNat ≤ 90 then Char.ofNat (c.toNat + 32) else c

/-! ### List-of-characters primitives for the normalization pipeline -/

/-- Python `str.lower` (ASCII range). -/
def lowerL (s : List Char) : List Char :=
  s.map lowerChar

/-- Python `str.strip`: drop leading and trailing whitespace. -/
def stripL (s : List Char) : List Char :=
  ((s.dropWhile isWsChar).reverse.dropWhile isWsChar).reverse

/-- `startsWithL k s` holds when `k` is an initial segment of `s`. -/
def startsWithL : List Char → List Char → Bool
  | [], _ => true
  | _ :: _, [] => false
  | k :: ks, c :: cs => k = c && startsWithL ks cs

/-- `containsSub k s` holds when `k` occurs as a contiguous substring
of `s`. -/
def containsSub (k : List Char) : List Char → Bool
  | [] => startsWithL k []
  | c :: cs => startsWithL k (c :: cs) || containsSub k cs

/-- Fuelled worker for `replaceAll`; the fuel bounds the number of
characters of the subject still to be scanned, so recursion is
structural and the function evaluates inside the kernel. -/
def replaceAllGo (k v : List Char) : Nat → List Char → List Char
  | 0, s => s
  | _ + 1, [] => []
  | fuel + 1, c :: cs =>
    if k ≠ [] ∧ startsWithL k (c :: cs) then
      v ++ replaceAllGo k v fuel ((c :: cs).drop k.length)
    else
      c :: replaceAllGo k v fuel cs

/-- Python `str.replace k v`: replace every occurrence of `k`, scanning
left to right without overlap.  (For `k = []` this is the identity;
Python differs there, but every key fed to it in the source is a
non-empty literal.) -/
def replaceAll (k v s : List Char) : List Char :=
  replaceAllGo k v s.length s

/-- The synonym-substitution loop
`for phrase, replacement in synonym_map.items(): text = text.replace(phrase, replacement)`
of `enhanced_normalize`, folding the ordered table over the text. -/
def applySyns (m : List (String × String)) (s : List Char) : List Char :=
  m.foldl (fun acc kv => replaceAll kv.1.toList kv.2.toList acc) s

/-- Python `re.sub(r'\s+', ' ', text)`: every maximal run of whitespace
becomes a single space. -/
def collapseWs : List Char → List Char
  | [] => []
  | [c] => if isWsChar c then [' '] else [c]
  | c :: d :: tl =>
    if isWsChar c && isWsChar d then collapseWs (d :: tl)
    else (if isWsChar c then ' ' else c) :: collapseWs (d :: tl)

/-- Accumulator worker for `splitWs`. -/
def splitWsAux : List Char → List Char → List (List Char)
  | [], acc => if acc = [] then [] else [acc.reverse]
  | c :: cs, acc =>
    if isWsChar c then
      if acc = [] then splitWsAux cs [] else acc.reverse :: splitWsAux cs []
    else
      splitWsAux cs (c :: acc)

/-- Python `str.split()` with no separator: split on whitespace runs,
discarding empty pieces. -/
def splitWs (s : List Char) : List (List Char) :=
  splitWsAux s []

/-- Python `' '.join`. -/
def joinSp : List (List Char) → List Char
  | [] => []
  | [t] => t
  | t₁ :: t₂ :: ts => t₁ ++ ' ' :: joinSp (t₂ :: ts)

/-! ### Constant tables of `src/reflex_app.py` -/

/-- `ENHANCED_SYNONYM_MAP` of `src/reflex_app.py`, as the ordered list of
its (phrase, replacement) entries in insertion order. -/
def ENHANCED_SYNONYM_MAP : List (String × String) :=
  [ ("please select", "what is"),
    ("sector you are from", "your sector"),
    ("identity type", "id type"),
    ("what type of", "type of"),
    ("are you", "do you"),
    ("how many people report to you", "team size"),
    ("how many staff report to you", "team size"),
    ("what is age", "what is your age"),
    ("what age", "what is your age"),
    ("your age", "what is your age"),
    ("current role", "current position"),
    ("your role", "your position") ]

/-- `sklearn.feature_extraction.text.ENGLISH_STOP_WORDS`, the fixed
318-word list used by `enhanced_normalize`. -/
def ENGLISH_STOP_WORDS : List String :=
  [ "a", "about", "above", "across", "after", "afterwards", "again", "against",
    "all", "almost", "alone", "along", "already", "also", "although", "always",
    "am", "among", "amongst", "amoungst", "amount", "an", "and", "another",
    "any", "anyhow", "anyone", "anything", "anyway", "anywhere", "are",
    "around", "as", "at", "back", "be", "became", "because", "become",
    "becomes", "becoming", "been", "before", "beforehand", "behind", "being",
    "below", "beside", "besides", "between", "beyond", "bill", "both",
    "bottom", "but", "by", "call", "can", "cannot", "cant", "co", "con",
    "could", "couldnt", "cry", "de", "describe", "detail", "do", "done",
    "down", "due", "during", "each", "eg", "eight", "either", "eleven",
    "else", "elsewhere", "empty", "enough", "etc", "even", "ever", "every",
    "everyone", "everything", "everywhere", "except", "few", "fifteen",
    "fifty", "fill", "find", "fire", "first", "five", "for", "former",
    "formerly", "forty", "found", "four", "from", "front", "full", "further",
    "get", "give", "go", "had", "has", "hasnt", "have", "he", "hence", "her",
    "here", "hereafter", "hereby", "herein", "hereupon", "hers", "herself",
    "him", "himself", "his", "how", "however", "hundred", "i", "ie", "if",
    "in", "inc", "indeed", "interest", "into", "is", "it", "its", "itself",
    "keep", "last", "latter", "latterly", "least", "less", "ltd", "made",
    "many", "may", "me", "meanwhile", "might", "mill", "mine", "more",
    "moreover", "most", "mostly", "move", "much", "must", "my", "myself",
    "name", "namely", "neither", "never", "nevertheless", "next", "nine",
    "no", "nobody", "none", "noone", "nor", "not", "nothing", "now",
    "nowhere", "of", "off", "often", "on", "once", "one", "only", "onto",
    "or", "other", "others", "otherwise", "our", "ours", "ourselves", "out",
    "over", "own", "part", "per", "perhaps", "please", "put", "rather", "re",
    "same", "see", "seem", "seemed", "seeming", "seems", "serious", "several",
    "she", "should", "show", "side", "since", "sincere", "six", "sixty",
    "so", "some", "somehow", "someone", "something", "sometime", "sometimes",
    "somewhere", "still", "such", "system", "take", "ten", "than", "that",
    "the", "their", "them", "themselves", "then", "thence", "there",
    "thereafter", "thereby", "therefore", "therein", "thereupon", "these",
    "they", "thick", "thin", "third", "this", "those", "though", "three",
    "through", "throughout", "thru", "thus", "to", "together", "too", "top",
    "toward", "towards", "twelve", "twenty", "two", "un", "under", "until",
    "up", "upon", "us", "very", "via", "was", "we", "well", "were", "what",
    "whatever", "when", "whence", "whenever", "where", "whereafter",
    "whereas", "whereby", "wherein", "whereupon", "wherever", "whether",
    "which", "while", "whither", "who", "whoever", "whole", "whom", "whose",
    "why", "will", "with", "within", "without", "would", "yet", "you",
    "your", "yours", "yourself", "yourselves" ]

/-- `IDENTITY_TYPES` of `src/reflex_app.py`, in declaration order. -/
def IDENTITY_TYPES : List String :=
  [ "full name", "first name", "last name", "e-mail", "company", "gender",
    "country", "age", "title", "role", "phone number", "location",
    "pin", "passport", "date of birth", "uct", "student number",
    "department", "region", "city", "id number", "marital status",
    "education level", "english proficiency", "email", "surname",
    "name", "contact", "address", "mobile", "telephone", "qualification",
    "degree", "identification", "birth", "married", "single", "language",
    "sex", "position", "job", "organization", "organisation" ]

/-- `SURVEY_STAGES` of `src/reflex_app.py`: ordered (category, keyword
list) pairs, in declaration order. -/
def SURVEY_STAGES : List (String × List String) :=
  [ ("Recruitment Survey", ["application", "apply", "applying", "candidate", "candidacy", "admission", "enrolment", "enrollment", "combined app"]),
    ("Pre-Programme Survey", ["pre programme", "pre-programme", "pre program", "pre-program", "before programme", "preparation", "prep"]),
    ("LL Feedback Survey", ["ll feedback", "learning lab", "in-person", "multilingual"]),
    ("Pulse Check Survey", ["pulse", "check-in", "checkin", "pulse check"]),
    ("Progress Review Survey", ["progress", "review", "assessment", "evaluation", "mid-point", "checkpoint", "interim"]),
    ("Growth Goal Reflection", ["growth goal", "post-ll", "reflection"]),
    ("AP Survey", ["ap survey", "accountability partner", "ap post"]),
    ("Longitudinal Survey", ["longitudinal", "impact", "annual impact"]),
    ("CEO/Client Lead Survey", ["ceo", "client lead", "clientlead"]),
    ("Change Challenge Survey", ["change challenge"]),
    ("Organisational Practices Survey", ["organisational practices", "organizational practices"]),
    ("Post-bootcamp Feedback Survey", ["post bootcamp", "bootcamp feedback"]),
    ("Set your goal post LL", ["set your goal", "post ll"]),
    ("Other", ["drop-out", "attrition", "finance link", "mentorship application"]) ]

/-- `RESPONDENT_TYPES` of `src/reflex_app.py`, in declaration order. -/
def RESPONDENT_TYPES : List (String × List String) :=
  [ ("Participant", ["participant", "learner", "student", "individual", "person"]),
    ("Business", ["business", "enterprise", "company", "entrepreneur", "owner"]),
    ("Team member", ["team member", "staff", "employee", "worker"]),
    ("Accountability Partner", ["accountability partner", "ap", "manager", "supervisor"]),
    ("Client Lead", ["client lead", "ceo", "executive", "leadership"]),
    ("Managers", ["managers", "management", "supervisor"]) ]

/-- `PROGRAMMES` of `src/reflex_app.py`, in declaration order. -/
def PROGRAMMES : List (String × List String) :=
  [ ("Grow Your Business (GYB)", ["gyb", "grow your business", "grow business"]),
    ("Micro Enterprise Accelerator (MEA)", ["mea", "micro enterprise", "accelerator"]),
    ("Start your Business (SYB)", ["syb", "start your business", "start business"]),
    ("Leadership Development Programme (LDP)", ["ldp", "leadership development", "leadership"]),
    ("Management Development Programme (MDP)", ["mdp", "management development", "management"]),
    ("Thrive at Work (T@W)", ["taw", "thrive at work", "thrive", "t@w"]),
    ("Bootcamp", ["bootcamp", "boot camp", "survival bootcamp", "work readiness", "get set up"]),
    ("Academy", ["academy", "care academy"]),
    ("Finance Link", ["finance link"]),
    ("Custom", ["winning behaviours", "custom", "learning needs"]),
    ("ALL", ["all programmes", "template", "multilingual"]) ]

/-- `UID_FINAL_REFERENCE` of `src/reflex_app.py`: the curated override
table of exact raw question text to UID Final. -/
def UID_FINAL_REFERENCE : List (String × Nat) :=
  [ ("On a scale of 0-10, how likely is it that you would recommend AMI to someone (a colleague, friend or other business?)", 1),
    ("Do you (in general) feel more confident about your ability to raise capital for your business?", 38),
    ("Have you set and shared your Growth Goal with AMI?", 57),
    ("What is your gender?", 233),
    ("What is your age?", 234) ]

/-! ### Matching thresholds of `src/reflex_app.py` -/

def TFIDF_HIGH_CONFIDENCE : ℚ := 3/5

def TFIDF_LOW_CONFIDENCE : ℚ := 1/2

def SEMANTIC_THRESHOLD : ℚ := 3/5

def HEADING_TFIDF_THRESHOLD : ℚ := 11/20

def HEADING_SEMANTIC_THRESHOLD : ℚ := 13/20

def HEADING_LENGTH_THRESHOLD : Nat := 50

/-! ### `enhanced_normalize` of `src/reflex_app.py` -/

/-- Token filter of `enhanced_normalize`:
`[w for w in words if w not in ENGLISH_STOP_WORDS and len(w) > 2]`. -/
def tokenKeep (stop : List String) (t : List Char) : Bool :=
  !(stop.contains (String.mk t)) && decide (2 < t.length)

/-- A Python value as it may reach `enhanced_normalize`: a string, or
any non-string value (`None`, a number, a list, ...). -/
inductive PyValue where
  | str (s : String)
  | intV (n : Int)
  | noneV
  | listV (xs : List String)
deriving DecidableEq

/-- The `try` block of `enhanced_normalize`, step for step:
lower-case and strip, apply the synonym map in order, drop characters
outside `\w` and whitespace, collapse whitespace runs, split, filter
stop-words and short tokens, re-join.  Each Python operation used is
total on `str`, so the body is written in `Except` (the embedding of
Python exceptions) and always returns `Except.ok`. -/
def normalizeBody (s : String) : Except String String := do
  let t := stripL (lowerL s.toList)
  let t := applySyns ENHANCED_SYNONYM_MAP t
  let t := t.filter (fun c => isWordChar c || isWsChar c)
  let t := collapseWs t
  let ws := splitWs t
  let ws := ws.filter (tokenKeep ENGLISH_STOP_WORDS)
  return String.mk (joinSp ws)

/-- `enhanced_normalize` of `src/reflex_app.py`: non-strings map to
`""`; for strings the `try` body runs and any `Except.error` would be
caught and turned into `""`. -/
def enhanced_normalize (v : PyValue) : String :=
  match v with
  | .str s =>
    match normalizeBody s with
    | .ok r => r
    | .error _ => ""
  | _ => ""

/-- `enhanced_normalize` restricted to string input. -/
def enhanced_normalizeStr (s : String) : String :=
  enhanced_normalize (.str s)

/-- The composition of steps exactly as the spec sentence for claim C5
words them: lower-case; synonym replacements in table order; strip every
character outside alphanumerics and whitespace; collapse whitespace;
tokenize; drop stop-words and tokens shorter than 3 characters; rejoin.
(No surrounding-whitespace trim, and plain alphanumerics rather than the
`\w` class.) -/
def claimNormalizeSteps (s : String) : String :=
  String.mk (joinSp (List.filter (tokenKeep ENGLISH_STOP_WORDS)
    (splitWs (collapseWs (List.filter (fun c => isAlnumChar c || isWsChar c)
      (applySyns ENHANCED_SYNONYM_MAP (lowerL s.toList)))))))

/-- The claim C5 composition amended at the character class: the code
keeps the regex class `\w` (alphanumerics plus underscore), not bare
alphanumerics. -/
def amendedNormalizeSteps (s : String) : String :=
  String.mk (joinSp (List.filter (tokenKeep ENGLISH_STOP_WORDS)
    (splitWs (collapseWs (List.filter (fun c => isWordChar c || isWsChar c)
      (applySyns ENHANCED_SYNONYM_MAP (lowerL s.toList)))))))

/-! ### Match aggregation

The aggregation function `run_uid_match` is imported from `utils`, a
module of this repository that is not under `src/`; its per-question
decision logic is therefore modelled from the spec (section 4.5), using
the override table and the numeric thresholds that are in
`src/reflex_app.py`. -/

/-- One survey question row (spec section 3). -/
structure Question where
  text : String
  isChoice : Bool
deriving DecidableEq

/-- Best candidate produced by the lexical or the semantic matcher for
one question: the matched reference entry and its cosine score.  `none`
stands for "no candidate" (for instance an empty normalized question,
whose similarity is defined as 0). -/
structure BestMatch where
  uid : Nat
  heading : String
  score : ℚ
deriving DecidableEq

/-- Confidence tiers of a `MatchResult` (spec section 3). -/
inductive ConfidenceTier where
  | override
  | highLexical
  | lowLexical
  | semanticTier
  | noneTier
deriving DecidableEq

/-- `MatchResult` record (spec section 3). -/
structure MatchResult where
  finalUid : Option Nat
  tier : ConfidenceTier
  lexicalScore : Option ℚ
  semanticScore : Option ℚ
  matchedHeading : Option String
deriving DecidableEq

/-- Exact, unnormalized lookup of a raw question text in the override
table (spec section 4.2: `resolve_override`). -/
def lookupOverride (tbl : List (String × Nat)) (raw : String) : Option Nat :=
  (tbl.find? (fun p => decide (p.1 = raw))).map (·.2)

/-- Modelled from the spec: the lexical threshold the aggregator uses
for one question — `HEADING_TFIDF_THRESHOLD` when the text length
exceeds `HEADING_LENGTH_THRESHOLD`, else `TFIDF_HIGH_CONFIDENCE`
(spec section 4.5, `run_uid_match` of the absent `utils` module). -/
def lexThresholdFor (q : Question) : ℚ :=
  if HEADING_LENGTH_THRESHOLD < q.text.length then HEADING_TFIDF_THRESHOLD
  else TFIDF_HIGH_CONFIDENCE

/-- Modelled from the spec: the semantic threshold the aggregator uses
for one question — `HEADING_SEMANTIC_THRESHOLD` when the text length
exceeds `HEADING_LENGTH_THRESHOLD`, else `SEMANTIC_THRESHOLD`. -/
def semThresholdFor (q : Question) : ℚ :=
  if HEADING_LENGTH_THRESHOLD < q.text.length then HEADING_SEMANTIC_THRESHOLD
  else SEMANTIC_THRESHOLD

/-- Rules 4 and 5 of the aggregation precedence: the semantic threshold
test, reached only when no lexical rule applied. -/
def semanticDecision (semThr : ℚ) (lexScore : Option ℚ)
    (sem : Option BestMatch) : MatchResult :=
  match sem with
  | some d =>
    if semThr ≤ d.score then
      ⟨some d.uid, .semanticTier, lexScore, some d.score, some d.heading⟩
    else
      ⟨none, .noneTier, lexScore, some d.score, none⟩
  | none => ⟨none, .noneTier, lexScore, none, none⟩

/-- Rules 2 to 5 of the aggregation precedence, evaluated in order with
explicit thresholds: high lexical, low lexical, semantic, none. -/
def aggregateScores (lexHigh lexLow semThr : ℚ)
    (lex sem : Option BestMatch) : MatchResult :=
  match lex with
  | some c =>
    if lexHigh ≤ c.score then
      ⟨some c.uid, .highLexical, some c.score, sem.map (·.score), some c.heading⟩
    else if lexLow ≤ c.score then
      ⟨some c.uid, .lowLexical, some c.score, sem.map (·.score), some c.heading⟩
    else semanticDecision semThr (some c.score) sem
  | none => semanticDecision semThr none sem

/-- Modelled from the spec: the per-question confidence tiering of
`run_uid_match` (`utils` module, absent from `src/`), spec section 4.5 —
override lookup on the raw text first, then the threshold rules in
strict precedence order with the question's own thresholds. -/
def aggregateQuestion (ov : List (String × Nat)) (q : Question)
    (lex sem : Option BestMatch) : MatchResult :=
  match lookupOverride ov q.text with
  | some uid => ⟨some uid, .override, lex.map (·.score), sem.map (·.score), none⟩
  | none =>
    aggregateScores (lexThresholdFor q) TFIDF_LOW_CONFIDENCE
      (semThresholdFor q) lex sem

/-! ### Categorizer and identity detector

`categorize_survey_by_ami_structure`, `determine_identity_type` and
`contains_identity_info` also live in the absent `utils` module, so the
functions are modelled from the spec (sections 4.6 and 4.7), over the
keyword tables of `src/reflex_app.py`. -/

/-- Lower-casing on `String`. -/
def lowerStr (s : String) : String :=
  String.mk (lowerL s.toList)

/-- `sub` occurs as a contiguous substring of `hay`. -/
def strContains (hay sub : String) : Bool :=
  containsSub sub.toList hay.toList

/-- Modelled from the spec: one taxonomy of the categorizer — test the
declared (category, keywords) list in order against the lower-cased
title; a category matches when any of its keyword phrases is a substring;
the first match wins, else the taxonomy's default label (spec
section 4.6, `categorize_survey_by_ami_structure` of the absent `utils`
module). -/
def firstMatching (tbl : List (String × List String)) (dflt : String)
    (title : String) : String :=
  match tbl.find? (fun p => p.2.any (fun kw => strContains (lowerStr title) kw)) with
  | some p => p.1
  | none => dflt

/-- Modelled from the spec: `categorize_survey_by_ami_structure`
(absent `utils` module): the three taxonomies evaluated independently,
with defaults `Other` for the stage and `Unclassified` for the other
two (spec sections 3 and 4.6). -/
def categorize_survey_by_ami_structure (title : String) :
    String × String × String :=
  (firstMatching SURVEY_STAGES "Other" title,
   firstMatching RESPONDENT_TYPES "Unclassified" title,
   firstMatching PROGRAMMES "Unclassified" title)

/-- Modelled from the spec: `determine_identity_type` (absent `utils`
module): normalize the text, then return the first phrase of
`IDENTITY_TYPES` that occurs as a substring (spec section 4.7). -/
def determine_identity_type (text : String) : Option String :=
  IDENTITY_TYPES.find? (fun kw => strContains (enhanced_normalizeStr text) kw)

/-- Modelled from the spec: `contains_identity_info` (absent `utils`
module): whether any identity phrase was found (spec section 4.7). -/
def contains_identity_info (text : String) : Bool :=
  (determine_identity_type text).isSome

/-! ### `DatabaseManager.get_question_bank` of `src/database.py` -/

/-- One reference-bank row (`HEADING_0`, `UID`). -/
structure QBRow where
  heading : String
  uid : Int
deriving DecidableEq

/-- `DatabaseManager.get_question_bank`, with its two effect sources
made explicit: whether `self.snowflake_engine` is configured, and the
outcome of the Snowflake query (`Except.error` embeds a raised
exception).  Inside `try`: an unconfigured engine returns an empty
DataFrame; a successful query returns its rows (the subsequent column
renaming only relabels columns); the `except` arm returns an empty
DataFrame.  The function is total: it never propagates an exception. -/
def get_question_bank (engineConfigured : Bool)
    (queryResult : Except String (List QBRow)) : List QBRow :=
  if engineConfigured then
    match queryResult with
    | .ok df => df
    | .error _ => []
  else []

/-! ### Lemmas: `startsWithL` -/

theorem startsWithL_nil (s : List Char) : startsWithL [] s = true := by
  cases s <;> rfl

theorem startsWithL_iff (k s : List Char) :
    startsWithL k s = true ↔ ∃ r, s = k ++ r := by
  induction k generalizing s with
  | nil =>
    simp only [startsWithL_nil, List.nil_append, true_iff]
    exact ⟨s, rfl⟩
  | cons a ks ih =>
    cases s with
    | nil =>
      simp only [startsWithL]
      constructor
      · intro h; exact absurd h (by simp)
      · rintro ⟨r, hr⟩; simp at hr
    | cons c cs =>
      simp only [startsWithL, Bool.and_eq_true, decide_eq_true_eq, ih]
      constructor
      · rintro ⟨rfl, r, rfl⟩; exact ⟨r, rfl⟩
      · rintro ⟨r, hr⟩
        injection hr with h1 h2
        exact ⟨h1.symm, r, h2⟩

theorem startsWithL_append_left {k x : List Char} (y : List Char)
    (h : startsWithL k x = true) : startsWithL k (x ++ y) = true := by
  rw [startsWithL_iff] at h ⊢
  obtain ⟨r, rfl⟩ := h
  exact ⟨r ++ y, by simp⟩

theorem startsWithL_length_le {k s : List Char}
    (h : startsWithL k s = true) : k.length ≤ s.length := by
  rw [startsWithL_iff] at h
  obtain ⟨r, rfl⟩ := h
  simp

theorem startsWithL_take {k s : List Char}
    (h : startsWithL k s = true) : k = s.take k.length := by
  rw [startsWithL_iff] at h
  obtain ⟨r, rfl⟩ := h
  rw [List.take_left]

theorem startsWithL_of_append_of_le {k x y : List Char}
    (h : startsWithL k (x ++ y) = true) (hlen : k.length ≤ x.length) :
    startsWithL k x = true := by
  have hk := startsWithL_take h
  rw [List.take_append_eq_append_take, Nat.sub_eq_zero_of_le hlen,
    List.take_zero, List.append_nil] at hk
  rw [startsWithL_iff]
  refine ⟨x.drop k.length, ?_⟩
  conv_lhs => rw [← List.take_append_drop k.length x]
  rw [← hk]

/-! ### Lemmas: `replaceAll` -/

theorem replaceAllGo_fuel {k v : List Char} :
    ∀ (f₁ f₂ : Nat) (s : List Char), s.length ≤ f₁ → s.length ≤ f₂ →
      replaceAllGo k v f₁ s = replaceAllGo k v f₂ s := by
  intro f₁
  induction f₁ with
  | zero =>
    intro f₂ s hs₁ _
    have : s = [] := List.length_eq_zero.mp (Nat.le_zero.mp hs₁)
    subst this
    cases f₂ <;> rfl
  | succ f₁ ih =>
    intro f₂ s hs₁ hs₂
    cases s with
    | nil => cases f₂ <;> rfl
    | cons c cs =>
      cases f₂ with
      | zero => simp at hs₂
      | succ f₂ =>
        simp only [replaceAllGo]
        by_cases h : k ≠ [] ∧ startsWithL k (c :: cs) = true
        · rw [if_pos h, if_pos h]
          congr 1
          have hk : 1 ≤ k.length := List.length_pos.mpr h.1
          have hd : ((c :: cs).drop k.length).length ≤ f₁ := by
            simp only [List.length_drop, List.length_cons] at *
            omega
          have hd₂ : ((c :: cs).drop k.length).length ≤ f₂ := by
            simp only [List.length_drop, List.length_cons] at *
            omega
          exact ih f₂ _ hd hd₂
        · rw [if_neg h, if_neg h]
          congr 1
          exact ih f₂ cs (by simpa using Nat.le_of_succ_le_succ (by simpa using hs₁))
            (by simpa using Nat.le_of_succ_le_succ (by simpa using hs₂))

theorem replaceAllGo_eq_replaceAll {k v : List Char} {f : Nat} {s : List Char}
    (h : s.length ≤ f) : replaceAllGo k v f s = replaceAll k v s :=
  replaceAllGo_fuel f s.length s h (Nat.le_refl _)

theorem replaceAll_nil (k v : List Char) : replaceAll k v [] = [] := by
  rfl

theorem replaceAll_pos {k : List Char} (v : List Char) {c : Char} {cs : List Char}
    (hk : k ≠ []) (h : startsWithL k (c :: cs) = true) :
    replaceAll k v (c :: cs) = v ++ replaceAll k v ((c :: cs).drop k.length) := by
  have hk1 : 1 ≤ k.length := List.length_pos.mpr hk
  show replaceAllGo k v (cs.length + 1) (c :: cs) = _
  rw [replaceAllGo, if_pos ⟨hk, h⟩]
  congr 1
  exact replaceAllGo_eq_replaceAll (by simp [List.length_drop]; omega)

theorem replaceAll_neg {k : List Char} (v : List Char) {c : Char} {cs : List Char}
    (h : startsWithL k (c :: cs) = false) :
    replaceAll k v (c :: cs) = c :: replaceAll k v cs := by
  show replaceAllGo k v (cs.length + 1) (c :: cs) = _
  rw [replaceAllGo, if_neg (by simp [h])]
  rfl

/-! ### Lemmas: `replaceAll` over whitespace padding

The synonym keys of the source all begin and end with a non-whitespace
character, so occurrences can never reach into leading or trailing
whitespace; replacement therefore commutes with whitespace padding. -/

theorem startsWithL_ws_head {k : List Char} {c : Char} (cs : List Char)
    (hhead : isWsChar (k.headD ' ') = false) (hk : k ≠ [])
    (hc : isWsChar c = true) : startsWithL k (c :: cs) = false := by
  cases k with
  | nil => exact absurd rfl hk
  | cons a ks =>
    simp only [List.headD_cons] at hhead
    simp only [startsWithL, Bool.and_eq_false_iff, decide_eq_false_iff_not]
    left
    intro h
    rw [h, hc] at hhead
    simp at hhead

theorem replaceAll_allWs {k v w : List Char}
    (hw : ∀ c ∈ w, isWsChar c = true)
    (hhead : isWsChar (k.headD ' ') = false) (hk : k ≠ []) :
    replaceAll k v w = w := by
  induction w with
  | nil => exact replaceAll_nil k v
  | cons c cs ih =>
    rw [replaceAll_neg v (startsWithL_ws_head cs hhead hk (hw c (List.mem_cons_self _ _))),
      ih (fun d hd => hw d (List.mem_cons_of_mem c hd))]

theorem replaceAll_ws_left {k v : List Char} (r : List Char) {w : List Char}
    (hw : ∀ c ∈ w, isWsChar c = true)
    (hhead : isWsChar (k.headD ' ') = false) (hk : k ≠ []) :
    replaceAll k v (w ++ r) = w ++ replaceAll k v r := by
  induction w with
  | nil => rfl
  | cons c cs ih =>
    rw [List.cons_append,
      replaceAll_neg v (startsWithL_ws_head _ hhead hk (hw c (List.mem_cons_self _ _))),
      ih (fun d hd => hw d (List.mem_cons_of_mem c hd))]
    rfl

theorem getLast_ws_of_startsWith_pad {k t w : List Char}
    (h : startsWithL k (t ++ w) = true) (hlen : t.length < k.length)
    (hw : ∀ c ∈ w, isWsChar c = true) :
    isWsChar (k.getLastD ' ') = true := by
  have hkt := startsWithL_take h
  rw [List.take_append_eq_append_take,
    List.take_of_length_le (Nat.le_of_lt hlen)] at hkt
  have htw : k.length - t.length ≤ w.length := by
    have := startsWithL_length_le h
    simp only [List.length_append] at this
    omega
  have hne : w.take (k.length - t.length) ≠ [] := by
    intro hnil
    have := congrArg List.length hnil
    simp only [List.length_take, List.length_nil] at this
    omega
  obtain ⟨L, b, hLb⟩ := (List.eq_nil_or_concat (w.take (k.length - t.length))).resolve_left hne
  rw [List.concat_eq_append] at hLb
  have hb : b ∈ w := by
    refine List.take_subset (k.length - t.length) w ?_
    rw [hLb]
    exact List.mem_append_right L (List.mem_cons_self _ _)
  have : k.getLastD ' ' = b := by
    rw [hkt, hLb, ← List.append_assoc, List.getLastD_concat]
  rw [this]
  exact hw b hb

theorem replaceAll_ws_right {k v : List Char} {w : List Char}
    (hw : ∀ c ∈ w, isWsChar c = true)
    (hhead : isWsChar (k.headD ' ') = false)
    (hlast : isWsChar (k.getLastD ' ') = false) (hk : k ≠ []) :
    ∀ t : List Char, replaceAll k v (t ++ w) = replaceAll k v t ++ w := by
  suffices H : ∀ (n : Nat) (t : List Char), t.length = n →
      replaceAll k v (t ++ w) = replaceAll k v t ++ w by
    exact fun t => H t.length t rfl
  intro n
  induction n using Nat.strong_induction_on with
  | _ n ih =>
    intro t hn
    cases t with
    | nil =>
      rw [List.nil_append, replaceAll_nil,
        replaceAll_allWs hw hhead hk, List.nil_append]
    | cons c t' =>
      by_cases hsw : startsWithL k ((c :: t') ++ w) = true
      · have hle : k.length ≤ (c :: t').length := by
          by_contra hgt
          push_neg at hgt
          have := getLast_ws_of_startsWith_pad hsw hgt hw
          rw [hlast] at this
          exact Bool.false_ne_true this
        have hsw' : startsWithL k (c :: t') = true :=
          startsWithL_of_append_of_le hsw hle
        rw [List.cons_append] at hsw
        rw [List.cons_append, replaceAll_pos v hk hsw, replaceAll_pos v hk hsw']
        have hdrop : ((c :: t') ++ w).drop k.length =
            (c :: t').drop k.length ++ w := by
          rw [List.drop_append_eq_append_drop, Nat.sub_eq_zero_of_le hle,
            List.drop_zero]
        rw [List.cons_append] at hdrop
        rw [hdrop]
        have hlt : ((c :: t').drop k.length).length < n := by
          have hk1 : 1 ≤ k.length := List.length_pos.mpr hk
          simp only [List.length_drop, List.length_cons]
          simp only [List.length_cons] at hn
          omega
        rw [ih _ hlt _ rfl, List.append_assoc]
      · have hsw2 : startsWithL k (c :: t') = false := by
          by_contra hc
          rw [Bool.not_eq_false] at hc
          exact hsw (by
            rw [List.cons_append]
            exact startsWithL_append_left w hc)
        rw [Bool.not_eq_true] at hsw
        rw [List.cons_append] at hsw
        rw [List.cons_append, replaceAll_neg v hsw, replaceAll_neg v hsw2,
          List.cons_append]
        have hlt : t'.length < n := by
          simp only [List.length_cons] at hn
          omega
        rw [ih _ hlt _ rfl]

theorem replaceAll_pad {k v w₁ w₂ : List Char} (t : List Char)
    (hw₁ : ∀ c ∈ w₁, isWsChar c = true) (hw₂ : ∀ c ∈ w₂, isWsChar c = true)
    (hhead : isWsChar (k.headD ' ') = false)
    (hlast : isWsChar (k.getLastD ' ') = false) (hk : k ≠ []) :
    replaceAll k v (w₁ ++ t ++ w₂) = w₁ ++ replaceAll k v t ++ w₂ := by
  rw [List.append_assoc, replaceAll_ws_left _ hw₁ hhead hk,
    replaceAll_ws_right hw₂ hhead hlast hk t, List.append_assoc]

theorem applySyns_pad {m : List (String × String)} {w₁ w₂ : List Char}
    (t : List Char)
    (hm : ∀ kv ∈ m, kv.1.toList ≠ [] ∧
      isWsChar (kv.1.toList.headD ' ') = false ∧
      isWsChar (kv.1.toList.getLastD ' ') = false)
    (hw₁ : ∀ c ∈ w₁, isWsChar c = true) (hw₂ : ∀ c ∈ w₂, isWsChar c = true) :
    applySyns m (w₁ ++ t ++ w₂) = w₁ ++ applySyns m t ++ w₂ := by
  induction m generalizing t with
  | nil => rfl
  | cons kv m ih =>
    have hkv := hm kv (List.mem_cons_self _ _)
    show applySyns m (replaceAll kv.1.toList kv.2.toList (w₁ ++ t ++ w₂)) = _
    rw [replaceAll_pad t hw₁ hw₂ hkv.2.1 hkv.2.2 hkv.1]
    exact ih _ (fun p hp => hm p (List.mem_cons_of_mem kv hp))

theorem synMapGood : ∀ kv ∈ ENHANCED_SYNONYM_MAP, kv.1.toList ≠ [] ∧
    isWsChar (kv.1.toList.headD ' ') = false ∧
    isWsChar (kv.1.toList.getLastD ' ') = false := by
  decide

/-! ### Lemmas: `splitWs` and `collapseWs` -/

theorem splitWs_nil : splitWs [] = [] := rfl

theorem splitWs_cons_ws {c : Char} (cs : List Char) (hc : isWsChar c = true) :
    splitWs (c :: cs) = splitWs cs := by
  show splitWsAux (c :: cs) [] = _
  simp only [splitWsAux, hc, if_pos, if_true]
  rfl

theorem splitWsAux_acc (cs : List Char) :
    ∀ acc : List Char, acc ≠ [] →
      splitWsAux cs acc =
        (acc.reverse ++ cs.takeWhile (fun c => !isWsChar c)) ::
          splitWs (cs.dropWhile (fun c => !isWsChar c)) := by
  induction cs with
  | nil =>
    intro acc hacc
    simp only [splitWsAux, if_neg hacc, List.takeWhile_nil, List.dropWhile_nil,
      List.append_nil]
    rfl
  | cons c cs ih =>
    intro acc hacc
    by_cases hc : isWsChar c = true
    · simp only [splitWsAux, hc, if_pos, if_neg hacc, List.takeWhile_cons,
        List.dropWhile_cons, Bool.not_true, Bool.false_eq_true, if_false,
        List.append_nil]
      show acc.reverse :: splitWs cs = acc.reverse :: splitWs (c :: cs)
      rw [splitWs_cons_ws cs hc]
    · rw [Bool.not_eq_true] at hc
      simp only [splitWsAux, hc, Bool.false_eq_true, if_false,
        List.takeWhile_cons, List.dropWhile_cons, Bool.not_false, if_true]
      rw [ih (c :: acc) (List.cons_ne_nil c acc)]
      simp

theorem splitWs_cons_nonws {c : Char} (cs : List Char) (hc : isWsChar c = false) :
    splitWs (c :: cs) =
      (c :: cs.takeWhile (fun c => !isWsChar c)) ::
        splitWs (cs.dropWhile (fun c => !isWsChar c)) := by
  show splitWsAux (c :: cs) [] = _
  simp only [splitWsAux, hc, Bool.false_eq_true, if_false]
  rw [splitWsAux_acc cs [c] (List.cons_ne_nil c [])]
  rfl

theorem collapseWs_cons_ws (cs : List Char) :
    ∀ {c : Char}, isWsChar c = true →
      collapseWs (c :: cs) = ' ' :: collapseWs (cs.dropWhile isWsChar) := by
  induction cs with
  | nil =>
    intro c hc
    simp [collapseWs, hc]
  | cons d tl ih =>
    intro c hc
    by_cases hd : isWsChar d = true
    · show collapseWs (c :: d :: tl) = _
      rw [collapseWs, if_pos (by rw [hc, hd]; rfl), ih hd,
        List.dropWhile_cons_of_pos hd]
    · rw [Bool.not_eq_true] at hd
      show collapseWs (c :: d :: tl) = _
      rw [collapseWs, if_neg (by rw [hc, hd]; simp), if_pos hc,
        List.dropWhile_cons_of_neg (by rw [hd]; simp)]

theorem collapseWs_cons_nonws {c : Char} (cs : List Char)
    (hc : isWsChar c = false) :
    collapseWs (c :: cs) = c :: collapseWs cs := by
  cases cs with
  | nil => simp [collapseWs, hc]
  | cons d tl =>
    rw [collapseWs, if_neg (by rw [hc]; simp), if_neg (by rw [hc]; simp)]

theorem takeWhile_nonws_collapse (cs : List Char) :
    (collapseWs cs).takeWhile (fun c => !isWsChar c) =
      cs.takeWhile (fun c => !isWsChar c) := by
  induction cs with
  | nil => rfl
  | cons c cs ih =>
    by_cases hc : isWsChar c = true
    · rw [collapseWs_cons_ws cs hc, List.takeWhile_cons_of_neg (by decide),
        List.takeWhile_cons_of_neg (by simp [hc])]
    · rw [Bool.not_eq_true] at hc
      rw [collapseWs_cons_nonws cs hc, List.takeWhile_cons_of_pos (by simp [hc]),
        List.takeWhile_cons_of_pos (by simp [hc]), ih]

theorem dropWhile_nonws_collapse (cs : List Char) :
    (collapseWs cs).dropWhile (fun c => !isWsChar c) =
      collapseWs (cs.dropWhile (fun c => !isWsChar c)) := by
  induction cs with
  | nil => rfl
  | cons c cs ih =>
    by_cases hc : isWsChar c = true
    · rw [collapseWs_cons_ws cs hc, List.dropWhile_cons_of_neg (by decide),
        List.dropWhile_cons_of_neg (by simp [hc]), collapseWs_cons_ws cs hc]
    · rw [Bool.not_eq_true] at hc
      rw [collapseWs_cons_nonws cs hc, List.dropWhile_cons_of_pos (by simp [hc]),
        List.dropWhile_cons_of_pos (by simp [hc]), ih]

theorem splitWs_dropWhile_ws (cs : List Char) :
    splitWs (cs.dropWhile isWsChar) = splitWs cs := by
  induction cs with
  | nil => rfl
  | cons c cs ih =>
    by_cases hc : isWsChar c = true
    · rw [List.dropWhile_cons_of_pos hc, ih, splitWs_cons_ws cs hc]
    · rw [Bool.not_eq_true] at hc
      rw [List.dropWhile_cons_of_neg (by rw [hc]; simp)]

theorem splitWs_collapse : ∀ s : List Char,
    splitWs (collapseWs s) = splitWs s := by
  suffices H : ∀ (n : Nat) (s : List Char), s.length = n →
      splitWs (collapseWs s) = splitWs s by
    exact fun s => H s.length s rfl
  intro n
  induction n using Nat.strong_induction_on with
  | _ n ih =>
    intro s hn
    cases s with
    | nil => rfl
    | cons c cs =>
      by_cases hc : isWsChar c = true
      · rw [collapseWs_cons_ws cs hc, splitWs_cons_ws _ (by decide : isWsChar ' ' = true),
          splitWs_cons_ws cs hc]
        have hlen : (cs.dropWhile isWsChar).length < n := by
          have h1 : (cs.dropWhile isWsChar).length ≤ cs.length :=
            (List.dropWhile_sublist isWsChar).length_le
          simp only [List.length_cons] at hn
          omega
        rw [ih _ hlen _ rfl, splitWs_dropWhile_ws]
      · rw [Bool.not_eq_true] at hc
        rw [collapseWs_cons_nonws cs hc, splitWs_cons_nonws _ hc,
          splitWs_cons_nonws cs hc, takeWhile_nonws_collapse,
          dropWhile_nonws_collapse]
        have hlen : (cs.dropWhile (fun c => !isWsChar c)).length < n := by
          have h1 : (cs.dropWhile (fun c => !isWsChar c)).length ≤ cs.length :=
            (List.dropWhile_sublist _).length_le
          simp only [List.length_cons] at hn
          omega
        rw [ih _ hlen _ rfl]

theorem splitWs_allWs {w : List Char} (hw : ∀ c ∈ w, isWsChar c = true) :
    splitWs w = [] := by
  induction w with
  | nil => rfl
  | cons c cs ih =>
    rw [splitWs_cons_ws cs (hw c (List.mem_cons_self _ _))]
    exact ih (fun d hd => hw d (List.mem_cons_of_mem c hd))

theorem splitWs_append_ws_left {w : List Char} (r : List Char)
    (hw : ∀ c ∈ w, isWsChar c = true) :
    splitWs (w ++ r) = splitWs r := by
  induction w with
  | nil => rfl
  | cons c cs ih =>
    rw [List.cons_append, splitWs_cons_ws _ (hw c (List.mem_cons_self _ _))]
    exact ih (fun d hd => hw d (List.mem_cons_of_mem c hd))

theorem takeWhile_append_not_all {p : Char → Bool} {x : List Char}
    (y : List Char) {a : Char} (ha : a ∈ x) (hpa : p a = false) :
    (x ++ y).takeWhile p = x.takeWhile p ∧
      (x ++ y).dropWhile p = x.dropWhile p ++ y := by
  induction x with
  | nil => simp at ha
  | cons c cs ih =>
    by_cases hc : p c = true
    · have ha' : a ∈ cs := by
        rcases List.mem_cons.mp ha with h | h
        · rw [h] at hpa; rw [hpa] at hc; simp at hc
        · exact h
      obtain ⟨h1, h2⟩ := ih ha'
      constructor
      · rw [List.cons_append, List.takeWhile_cons_of_pos hc,
          List.takeWhile_cons_of_pos hc, h1]
      · rw [List.cons_append, List.dropWhile_cons_of_pos hc,
          List.dropWhile_cons_of_pos hc, h2]
    · rw [Bool.not_eq_true] at hc
      constructor
      · rw [List.cons_append, List.takeWhile_cons_of_neg (by rw [hc]; simp),
          List.takeWhile_cons_of_neg (by rw [hc]; simp)]
      · rw [List.cons_append, List.dropWhile_cons_of_neg (by rw [hc]; simp),
          List.dropWhile_cons_of_neg (by rw [hc]; simp), List.cons_append]

theorem takeWhile_append_all {p : Char → Bool} {x : List Char}
    (y : List Char) (hx : ∀ c ∈ x, p c = true) :
    (x ++ y).takeWhile p = x ++ y.takeWhile p ∧
      (x ++ y).dropWhile p = y.dropWhile p := by
  induction x with
  | nil => simp
  | cons c cs ih =>
    obtain ⟨h1, h2⟩ := ih (fun d hd => hx d (List.mem_cons_of_mem c hd))
    have hc := hx c (List.mem_cons_self _ _)
    constructor
    · rw [List.cons_append, List.takeWhile_cons_of_pos hc, h1, List.cons_append]
    · rw [List.cons_append, List.dropWhile_cons_of_pos hc, h2]

theorem splitWs_append_ws_right {w : List Char}
    (hw : ∀ c ∈ w, isWsChar c = true) :
    ∀ z : List Char, splitWs (z ++ w) = splitWs z := by
  suffices H : ∀ (n : Nat) (z : List Char), z.length = n →
      splitWs (z ++ w) = splitWs z by
    exact fun z => H z.length z rfl
  intro n
  induction n using Nat.strong_induction_on with
  | _ n ih =>
    intro z hn
    cases z with
    | nil => rw [List.nil_append, splitWs_allWs hw, splitWs_nil]
    | cons c cs =>
      by_cases hc : isWsChar c = true
      · rw [List.cons_append, splitWs_cons_ws _ hc, splitWs_cons_ws cs hc]
        have hlt : cs.length < n := by
          simp only [List.length_cons] at hn
          omega
        exact ih _ hlt cs rfl
      · rw [Bool.not_eq_true] at hc
        rw [List.cons_append, splitWs_cons_nonws _ hc, splitWs_cons_nonws cs hc]
        by_cases hall : ∀ d ∈ cs, (fun c => !isWsChar c) d = true
        · obtain ⟨h1, h2⟩ := takeWhile_append_all w hall
          rw [h1, h2]
          have htk : cs.takeWhile (fun c => !isWsChar c) = cs :=
            List.takeWhile_eq_self_iff.mpr hall
          have hdw : cs.dropWhile (fun c => !isWsChar c) = [] := by
            have := List.takeWhile_append_dropWhile (fun c => !isWsChar c) cs
            rw [htk] at this
            have hlen := congrArg List.length this
            simp only [List.length_append] at hlen
            exact List.length_eq_zero.mp (by omega)
          rw [htk, hdw, splitWs_nil]
          have htkw : w.takeWhile (fun c => !isWsChar c) = [] := by
            cases w with
            | nil => rfl
            | cons a as =>
              exact List.takeWhile_cons_of_neg
                (by simp [hw a (List.mem_cons_self _ _)])
          have hdww : w.dropWhile (fun c => !isWsChar c) = w := by
            cases w with
            | nil => rfl
            | cons a as =>
              exact List.dropWhile_cons_of_neg
                (by simp [hw a (List.mem_cons_self _ _)])
          rw [htkw, hdww, List.append_nil, splitWs_allWs hw]
        · push_neg at hall
          obtain ⟨a, ha, hpa⟩ := hall
          have hpa2 : (fun c => !isWsChar c) a = false := by
            simpa using hpa
          obtain ⟨h1, h2⟩ :=
            @takeWhile_append_not_all (fun c => !isWsChar c) cs w a ha hpa2
          rw [h1, h2]
          have hlt : (cs.dropWhile (fun c => !isWsChar c)).length < n := by
            have h3 : (cs.dropWhile (fun c => !isWsChar c)).length ≤ cs.length :=
              (List.dropWhile_sublist _).length_le
            simp only [List.length_cons] at hn
            omega
          rw [ih _ hlt _ rfl]

/-! ### Whitespace trimming is invisible to the rest of the pipeline -/

theorem stripL_decomp (s : List Char) :
    ∃ w₁ w₂ : List Char, (∀ c ∈ w₁, isWsChar c = true) ∧
      (∀ c ∈ w₂, isWsChar c = true) ∧ s = w₁ ++ stripL s ++ w₂ := by
  refine ⟨s.takeWhile isWsChar,
    ((s.dropWhile isWsChar).reverse.takeWhile isWsChar).reverse, ?_, ?_, ?_⟩
  · intro c hc
    exact List.mem_takeWhile_imp hc
  · intro c hc
    exact List.mem_takeWhile_imp (List.mem_reverse.mp hc)
  · conv_lhs => rw [← List.takeWhile_append_dropWhile isWsChar s]
    rw [List.append_assoc]
    congr 1
    conv_lhs => rw [← List.reverse_reverse (s.dropWhile isWsChar),
      ← List.takeWhile_append_dropWhile isWsChar (s.dropWhile isWsChar).reverse]
    rw [List.reverse_append]
    rfl

theorem filter_keep_allWs {w : List Char} (hw : ∀ c ∈ w, isWsChar c = true) :
    List.filter (fun c => isWordChar c || isWsChar c) w = w :=
  List.filter_eq_self.mpr (fun c hc => by rw [hw c hc]; simp)

theorem splitWs_strip_pipeline (s : List Char) :
    splitWs (collapseWs (List.filter (fun c => isWordChar c || isWsChar c)
      (applySyns ENHANCED_SYNONYM_MAP (stripL s)))) =
    splitWs (collapseWs (List.filter (fun c => isWordChar c || isWsChar c)
      (applySyns ENHANCED_SYNONYM_MAP s))) := by
  obtain ⟨w₁, w₂, hw₁, hw₂, hs⟩ := stripL_decomp s
  conv_rhs => rw [hs]
  rw [applySyns_pad _ synMapGood hw₁ hw₂, List.filter_append, List.filter_append,
    filter_keep_allWs hw₁, filter_keep_allWs hw₂, splitWs_collapse,
    splitWs_collapse, splitWs_append_ws_right hw₂, splitWs_append_ws_left _ hw₁]

theorem enhanced_normalize_eq_amended (s : String) :
    enhanced_normalizeStr s = amendedNormalizeSteps s := by
  show String.mk (joinSp (List.filter (tokenKeep ENGLISH_STOP_WORDS)
      (splitWs (collapseWs (List.filter (fun c => isWordChar c || isWsChar c)
        (applySyns ENHANCED_SYNONYM_MAP (stripL (lowerL s.toList)))))))) = _
  unfold amendedNormalizeSteps
  rw [splitWs_strip_pipeline]

/-! ### Character provenance through the pipeline -/

theorem lowerChar_toNat_add {c : Char} (h1 : 65 ≤ c.toNat) (h2 : c.toNat ≤ 90) :
    (lowerChar c).toNat = c.toNat + 32 := by
  rw [lowerChar, if_pos ⟨h1, h2⟩]
  have hv : (c.toNat + 32).isValidChar := Or.inl (by omega)
  rw [Char.ofNat, dif_pos hv]
  simp [Char.ofNatAux, Char.toNat, UInt32.toNat]

theorem lowerChar_idem (c : Char) : lowerChar (lowerChar c) = lowerChar c := by
  by_cases h : 65 ≤ c.toNat ∧ c.toNat ≤ 90
  · have ht := lowerChar_toNat_add h.1 h.2
    have h2 : ¬(65 ≤ (lowerChar c).toNat ∧ (lowerChar c).toNat ≤ 90) := by
      rw [ht]
      omega
    nth_rewrite 1 [lowerChar]
    rw [if_neg h2]
  · have hc : lowerChar c = c := by rw [lowerChar, if_neg h]
    rw [hc]
    exact hc

theorem replaceAllGo_mem {k v : List Char} {c : Char} :
    ∀ {f : Nat} {s : List Char}, c ∈ replaceAllGo k v f s → c ∈ s ∨ c ∈ v := by
  intro f
  induction f with
  | zero =>
    intro s h
    exact Or.inl h
  | succ f ih =>
    intro s h
    cases s with
    | nil => exact Or.inl h
    | cons a cs =>
      rw [replaceAllGo] at h
      by_cases hsw : k ≠ [] ∧ startsWithL k (a :: cs) = true
      · rw [if_pos hsw] at h
        rcases List.mem_append.mp h with h | h
        · exact Or.inr h
        · rcases ih h with h | h
          · exact Or.inl (List.drop_subset _ _ h)
          · exact Or.inr h
      · rw [if_neg hsw] at h
        rcases List.mem_cons.mp h with h | h
        · exact Or.inl (h ▸ List.mem_cons_self _ _)
        · rcases ih h with h | h
          · exact Or.inl (List.mem_cons_of_mem a h)
          · exact Or.inr h

theorem replaceAll_mem {k v s : List Char} {c : Char}
    (h : c ∈ replaceAll k v s) : c ∈ s ∨ c ∈ v :=
  replaceAllGo_mem h

theorem applySyns_mem {m : List (String × String)} {c : Char} :
    ∀ {s : List Char}, c ∈ applySyns m s →
      c ∈ s ∨ ∃ kv ∈ m, c ∈ kv.2.toList := by
  induction m with
  | nil =>
    intro s h
    exact Or.inl h
  | cons kv m ih =>
    intro s h
    rcases ih h with h | ⟨p, hp, hc⟩
    · rcases replaceAll_mem h with h | h
      · exact Or.inl h
      · exact Or.inr ⟨kv, List.mem_cons_self _ _, h⟩
    · exact Or.inr ⟨p, List.mem_cons_of_mem kv hp, hc⟩

theorem collapseWs_mem : ∀ {l : List Char} {c : Char}, c ∈ collapseWs l →
    c = ' ' ∨ c ∈ l := by
  suffices H : ∀ (n : Nat) (l : List Char), l.length = n → ∀ c : Char,
      c ∈ collapseWs l → c = ' ' ∨ c ∈ l by
    intro l c h
    exact H l.length l rfl c h
  intro n
  induction n using Nat.strong_induction_on with
  | _ n ih =>
    intro l hl c h
    cases l with
    | nil => exact absurd h (by simp [collapseWs])
    | cons a cs =>
      by_cases ha : isWsChar a = true
      · rw [collapseWs_cons_ws cs ha] at h
        rcases List.mem_cons.mp h with h | h
        · exact Or.inl h
        · have hlt : (cs.dropWhile isWsChar).length < n := by
            have := (List.dropWhile_sublist isWsChar (l := cs)).length_le
            simp only [List.length_cons] at hl
            omega
          rcases ih _ hlt _ rfl c h with h | h
          · exact Or.inl h
          · exact Or.inr (List.mem_cons_of_mem a
              ((List.dropWhile_sublist isWsChar).subset h))
      · rw [Bool.not_eq_true] at ha
        rw [collapseWs_cons_nonws cs ha] at h
        rcases List.mem_cons.mp h with h | h
        · exact Or.inr (h ▸ List.mem_cons_self _ _)
        · have hlt : cs.length < n := by
            simp only [List.length_cons] at hl
            omega
          rcases ih _ hlt _ rfl c h with h | h
          · exact Or.inl h
          · exact Or.inr (List.mem_cons_of_mem a h)

theorem splitWs_mem_props : ∀ {z t : List Char}, t ∈ splitWs z →
    t ≠ [] ∧ ∀ c ∈ t, isWsChar c = false ∧ c ∈ z := by
  suffices H : ∀ (n : Nat) (z : List Char), z.length = n → ∀ t : List Char,
      t ∈ splitWs z → t ≠ [] ∧ ∀ c ∈ t, isWsChar c = false ∧ c ∈ z by
    intro z t h
    exact H z.length z rfl t h
  intro n
  induction n using Nat.strong_induction_on with
  | _ n ih =>
    intro z hn t h
    cases z with
    | nil => exact absurd h (by simp [splitWs, splitWsAux])
    | cons a cs =>
      by_cases ha : isWsChar a = true
      · rw [splitWs_cons_ws cs ha] at h
        have hlt : cs.length < n := by
          simp only [List.length_cons] at hn
          omega
        obtain ⟨h1, h2⟩ := ih _ hlt _ rfl t h
        exact ⟨h1, fun c hc => ⟨(h2 c hc).1, List.mem_cons_of_mem a (h2 c hc).2⟩⟩
      · rw [Bool.not_eq_true] at ha
        rw [splitWs_cons_nonws cs ha] at h
        rcases List.mem_cons.mp h with h | h
        · subst h
          refine ⟨List.cons_ne_nil _ _, fun c hc => ?_⟩
          rcases List.mem_cons.mp hc with hc | hc
          · exact ⟨hc ▸ ha, hc ▸ List.mem_cons_self _ _⟩
          · have hp := List.mem_takeWhile_imp hc
            simp only [Bool.not_eq_true'] at hp
            exact ⟨hp, List.mem_cons_of_mem a
              ((List.takeWhile_sublist _).subset hc)⟩
        · have hlt : (cs.dropWhile (fun c => !isWsChar c)).length < n := by
            have := (List.dropWhile_sublist (fun c => !isWsChar c) (l := cs)).length_le
            simp only [List.length_cons] at hn
            omega
          obtain ⟨h1, h2⟩ := ih _ hlt _ rfl t h
          refine ⟨h1, fun c hc => ⟨(h2 c hc).1, List.mem_cons_of_mem a
            ((List.dropWhile_sublist _).subset (h2 c hc).2)⟩⟩

theorem joinSp_mem {ts : List (List Char)} {c : Char} :
    c ∈ joinSp ts → c = ' ' ∨ ∃ t ∈ ts, c ∈ t := by
  induction ts with
  | nil =>
    intro h
    exact absurd h (by simp [joinSp])
  | cons t ts ih =>
    intro h
    cases ts with
    | nil =>
      exact Or.inr ⟨t, List.mem_cons_self _ _, h⟩
    | cons t₂ rest =>
      rw [joinSp] at h
      rcases List.mem_append.mp h with h | h
      · exact Or.inr ⟨t, List.mem_cons_self _ _, h⟩
      · rcases List.mem_cons.mp h with h | h
        · exact Or.inl h
        · rcases ih h with h | ⟨u, hu, hc⟩
          · exact Or.inl h
          · exact Or.inr ⟨u, List.mem_cons_of_mem t hu, hc⟩

theorem stripL_mem {s : List Char} {c : Char} (h : c ∈ stripL s) : c ∈ s := by
  unfold stripL at h
  rw [List.mem_reverse] at h
  have h2 := (List.dropWhile_sublist isWsChar).subset h
  rw [List.mem_reverse] at h2
  exact (List.dropWhile_sublist isWsChar).subset h2

/-! ### Fixed points of the pipeline stages on normalized output -/

theorem dropWhile_all {p : Char → Bool} {l : List Char}
    (h : ∀ a ∈ l, p a = true) : l.dropWhile p = [] := by
  induction l with
  | nil => rfl
  | cons a as ih =>
    rw [List.dropWhile_cons_of_pos (h a (List.mem_cons_self _ _))]
    exact ih (fun b hb => h b (List.mem_cons_of_mem a hb))

theorem collapseWs_nonws_id {l : List Char}
    (h : ∀ c ∈ l, isWsChar c = false) : collapseWs l = l := by
  induction l with
  | nil => rfl
  | cons a as ih =>
    rw [collapseWs_cons_nonws as (h a (List.mem_cons_self _ _))]
    rw [ih (fun b hb => h b (List.mem_cons_of_mem a hb))]

theorem collapseWs_append_nonws {t : List Char} (r : List Char)
    (h : ∀ c ∈ t, isWsChar c = false) :
    collapseWs (t ++ r) = t ++ collapseWs r := by
  induction t with
  | nil => rfl
  | cons a as ih =>
    rw [List.cons_append, collapseWs_cons_nonws _ (h a (List.mem_cons_self _ _)),
      ih (fun b hb => h b (List.mem_cons_of_mem a hb)), List.cons_append]

theorem joinSp_head_ex (c : Char) (t' : List Char) (ts' : List (List Char)) :
    ∃ r, joinSp ((c :: t') :: ts') = c :: r := by
  cases ts' with
  | nil => exact ⟨t', rfl⟩
  | cons u rest => exact ⟨t' ++ ' ' :: joinSp (u :: rest), rfl⟩

theorem dropWhile_ws_joinSp {ts : List (List Char)}
    (hts : ∀ t ∈ ts, t ≠ [] ∧ ∀ c ∈ t, isWsChar c = false) :
    (joinSp ts).dropWhile isWsChar = joinSp ts := by
  cases ts with
  | nil => rfl
  | cons t ts' =>
    obtain ⟨hne, hnw⟩ := hts t (List.mem_cons_self _ _)
    cases t with
    | nil => exact absurd rfl hne
    | cons c t'' =>
      obtain ⟨r, hr⟩ := joinSp_head_ex c t'' ts'
      rw [hr, List.dropWhile_cons_of_neg]
      rw [hnw c (List.mem_cons_self _ _)]
      simp

theorem joinSp_reverse_shape {ts : List (List Char)}
    (hts : ∀ t ∈ ts, t ≠ [] ∧ ∀ c ∈ t, isWsChar c = false) :
    ts = [] ∨ ∃ c r, (joinSp ts).reverse = c :: r ∧ isWsChar c = false := by
  induction ts with
  | nil => exact Or.inl rfl
  | cons t ts' ih =>
    right
    obtain ⟨hne, hnw⟩ := hts t (List.mem_cons_self _ _)
    cases ts' with
    | nil =>
      show ∃ c r, t.reverse = c :: r ∧ isWsChar c = false
      cases hrev : t.reverse with
      | nil =>
        exact absurd (by simpa using congrArg List.reverse hrev) hne
      | cons d r =>
        refine ⟨d, r, rfl, hnw d ?_⟩
        rw [← List.mem_reverse, hrev]
        exact List.mem_cons_self _ _
    | cons t₂ rest =>
      rcases ih (fun u hu => hts u (List.mem_cons_of_mem t hu)) with h | ⟨c, r, hcr, hc⟩
      · exact absurd h (List.cons_ne_nil t₂ rest)
      · refine ⟨c, r ++ ' ' :: t.reverse, ?_, hc⟩
        show (t ++ ' ' :: joinSp (t₂ :: rest)).reverse = _
        rw [List.reverse_append, List.reverse_cons, hcr]
        simp

theorem stripL_joinSp {ts : List (List Char)}
    (hts : ∀ t ∈ ts, t ≠ [] ∧ ∀ c ∈ t, isWsChar c = false) :
    stripL (joinSp ts) = joinSp ts := by
  unfold stripL
  rw [dropWhile_ws_joinSp hts]
  rcases joinSp_reverse_shape hts with h | ⟨c, r, hcr, hc⟩
  · subst h
    rfl
  · rw [hcr, List.dropWhile_cons_of_neg (by rw [hc]; simp), ← hcr,
      List.reverse_reverse]

theorem splitWs_joinSp {ts : List (List Char)}
    (hts : ∀ t ∈ ts, t ≠ [] ∧ ∀ c ∈ t, isWsChar c = false) :
    splitWs (joinSp ts) = ts := by
  induction ts with
  | nil => rfl
  | cons t ts' ih =>
    obtain ⟨hne, hnw⟩ := hts t (List.mem_cons_self _ _)
    cases t with
    | nil => exact absurd rfl hne
    | cons c t'' =>
      have hc : isWsChar c = false := hnw c (List.mem_cons_self _ _)
      have ht'' : ∀ b ∈ t'', (fun x => !isWsChar x) b = true := by
        intro b hb
        simp [hnw b (List.mem_cons_of_mem c hb)]
      cases ts' with
      | nil =>
        show splitWs (c :: t'') = [c :: t'']
        rw [splitWs_cons_nonws t'' hc, List.takeWhile_eq_self_iff.mpr ht'',
          dropWhile_all ht'', splitWs_nil]
      | cons t₂ rest =>
        show splitWs ((c :: t'') ++ ' ' :: joinSp (t₂ :: rest)) = _
        rw [List.cons_append, splitWs_cons_nonws _ hc]
        obtain ⟨h1, h2⟩ := takeWhile_append_all (' ' :: joinSp (t₂ :: rest)) ht''
        rw [h1, h2, List.takeWhile_cons_of_neg (by decide),
          List.dropWhile_cons_of_neg (by decide), List.append_nil,
          splitWs_cons_ws _ (by decide)]
        rw [ih (fun u hu => hts u (List.mem_cons_of_mem _ hu))]

theorem replaceAll_no_occ {k v s : List Char}
    (h : containsSub k s = false) : replaceAll k v s = s := by
  induction s with
  | nil => exact replaceAll_nil k v
  | cons c cs ih =>
    rw [containsSub, Bool.or_eq_false_iff] at h
    rw [replaceAll_neg v h.1, ih h.2]

theorem applySyns_no_occ {m : List (String × String)} {s : List Char}
    (h : ∀ kv ∈ m, containsSub kv.1.toList s = false) : applySyns m s = s := by
  induction m with
  | nil => rfl
  | cons kv m ih =>
    show applySyns m (replaceAll kv.1.toList kv.2.toList s) = s
    rw [replaceAll_no_occ (h kv (List.mem_cons_self _ _))]
    exact ih (fun p hp => h p (List.mem_cons_of_mem kv hp))

theorem collapseWs_joinSp {ts : List (List Char)}
    (hts : ∀ t ∈ ts, t ≠ [] ∧ ∀ c ∈ t, isWsChar c = false) :
    collapseWs (joinSp ts) = joinSp ts := by
  induction ts with
  | nil => rfl
  | cons t ts' ih =>
    obtain ⟨hne, hnw⟩ := hts t (List.mem_cons_self _ _)
    cases ts' with
    | nil => exact collapseWs_nonws_id hnw
    | cons t₂ rest =>
      have htail := fun u hu => hts u (List.mem_cons_of_mem t hu)
      show collapseWs (t ++ ' ' :: joinSp (t₂ :: rest)) = _
      rw [collapseWs_append_nonws _ hnw, collapseWs_cons_ws _ (by decide),
        dropWhile_ws_joinSp htail, ih htail]
      rfl

theorem valuesLowerFixed : ∀ kv ∈ ENHANCED_SYNONYM_MAP,
    ∀ c ∈ kv.2.toList, lowerChar c = c := by
  decide

theorem normOut_shape (s : String) :
    ∃ ts : List (List Char), enhanced_normalizeStr s = String.mk (joinSp ts) ∧
      ∀ t ∈ ts, t ≠ [] ∧ tokenKeep ENGLISH_STOP_WORDS t = true ∧
        ∀ c ∈ t, isWsChar c = false ∧ isWordChar c = true ∧ lowerChar c = c := by
  refine ⟨List.filter (tokenKeep ENGLISH_STOP_WORDS)
    (splitWs (collapseWs (List.filter (fun c => isWordChar c || isWsChar c)
      (applySyns ENHANCED_SYNONYM_MAP (stripL (lowerL s.toList)))))), rfl, ?_⟩
  intro t ht
  have htk := List.of_mem_filter ht
  have hmem := List.mem_of_mem_filter ht
  obtain ⟨hne, hprops⟩ := splitWs_mem_props hmem
  refine ⟨hne, htk, ?_⟩
  intro c hc
  obtain ⟨hnw, hcz⟩ := hprops c hc
  rcases collapseWs_mem hcz with hsp | hcf
  · rw [hsp] at hnw
    exact absurd hnw (by decide)
  · have hkeep := List.of_mem_filter hcf
    have hword : isWordChar c = true := by
      rcases Bool.or_eq_true_iff.mp hkeep with h | h
      · exact h
      · rw [h] at hnw
        exact absurd hnw (by decide)
    have hmemU := List.mem_of_mem_filter hcf
    have hlow : lowerChar c = c := by
      rcases applySyns_mem hmemU with hU | ⟨kv, hkv, hcv⟩
      · have hmap : c ∈ List.map lowerChar s.toList := stripL_mem hU
        obtain ⟨d, _, hd⟩ := List.mem_map.mp hmap
        rw [← hd]
        exact lowerChar_idem d
      · exact valuesLowerFixed kv hkv c hcv
    exact ⟨hnw, hword, hlow⟩

theorem normalize_fix_of_no_key {ts : List (List Char)}
    (hts : ∀ t ∈ ts, t ≠ [] ∧ tokenKeep ENGLISH_STOP_WORDS t = true ∧
      ∀ c ∈ t, isWsChar c = false ∧ isWordChar c = true ∧ lowerChar c = c)
    (hno : ∀ kv ∈ ENHANCED_SYNONYM_MAP,
      containsSub kv.1.toList (joinSp ts) = false) :
    enhanced_normalizeStr (String.mk (joinSp ts)) = String.mk (joinSp ts) := by
  show String.mk (joinSp (List.filter (tokenKeep ENGLISH_STOP_WORDS)
      (splitWs (collapseWs (List.filter (fun c => isWordChar c || isWsChar c)
        (applySyns ENHANCED_SYNONYM_MAP (stripL (lowerL (joinSp ts))))))))) = _
  have htoks : ∀ t ∈ ts, t ≠ [] ∧ ∀ c ∈ t, isWsChar c = false :=
    fun t ht => ⟨(hts t ht).1, fun c hc => ((hts t ht).2.2 c hc).1⟩
  have hlower : lowerL (joinSp ts) = joinSp ts := by
    show (joinSp ts).map lowerChar = joinSp ts
    have hfix : ∀ c ∈ joinSp ts, lowerChar c = c := by
      intro c hc
      rcases joinSp_mem hc with h | ⟨t, ht, hct⟩
      · rw [h]
        decide
      · exact ((hts t ht).2.2 c hct).2.2
    calc (joinSp ts).map lowerChar = (joinSp ts).map id :=
          List.map_congr_left hfix
      _ = joinSp ts := List.map_id _
  rw [hlower, stripL_joinSp htoks, applySyns_no_occ hno]
  have hfilter : List.filter (fun c => isWordChar c || isWsChar c)
      (joinSp ts) = joinSp ts := by
    apply List.filter_eq_self.mpr
    intro c hc
    rcases joinSp_mem hc with h | ⟨t, ht, hct⟩
    · rw [h]
      decide
    · rw [((hts t ht).2.2 c hct).2.1]
      simp
  rw [hfilter, collapseWs_joinSp htoks, splitWs_joinSp htoks,
    List.filter_eq_self.mpr (fun t ht => (hts t ht).2.1)]

theorem normalize_idem_of_no_key (x : String)
    (h : ∀ kv ∈ ENHANCED_SYNONYM_MAP,
      containsSub kv.1.toList (enhanced_normalizeStr x).toList = false) :
    enhanced_normalizeStr (enhanced_normalizeStr x) = enhanced_normalizeStr x := by
  obtain ⟨ts, hy, hts⟩ := normOut_shape x
  rw [hy] at h ⊢
  exact normalize_fix_of_no_key hts h

/-! ### First-match characterization of `List.find?` -/

theorem find?_append_false {α : Type} {P : α → Bool} {pre : List α}
    (l : List α) (h : ∀ x ∈ pre, P x = false) :
    (pre ++ l).find? P = l.find? P := by
  induction pre with
  | nil => rfl
  | cons a as ih =>
    rw [List.cons_append, List.find?_cons, h a (List.mem_cons_self _ _)]
    exact ih (fun x hx => h x (List.mem_cons_of_mem a hx))

theorem find?_some_decomp {α : Type} {P : α → Bool} {l : List α} {a : α}
    (h : l.find? P = some a) :
    P a = true ∧ ∃ pre post, l = pre ++ a :: post ∧ ∀ x ∈ pre, P x = false := by
  induction l with
  | nil => simp at h
  | cons x xs ih =>
    rw [List.find?_cons] at h
    cases hx : P x with
    | true =>
      rw [hx] at h
      injection h with h
      subst h
      exact ⟨hx, [], xs, rfl, by simp⟩
    | false =>
      rw [hx] at h
      obtain ⟨hPa, pre, post, hl, hpre⟩ := ih h
      refine ⟨hPa, x :: pre, post, by rw [hl]; rfl, ?_⟩
      intro y hy
      rcases List.mem_cons.mp hy with hy | hy
      · exact hy ▸ hx
      · exact hpre y hy

/-! ### Claim theorems -/

/-- Claim C1: for every question whose raw (unnormalized) text is a key
of the override table, the aggregator assigns tier `Override` and
`final_uid` equal to the override table's uid for that key, regardless
of the lexical and semantic scores supplied. -/
theorem c1_override_precedence (q : Question) (lex sem : Option BestMatch)
    (uid : Nat) (h : lookupOverride UID_FINAL_REFERENCE q.text = some uid) :
    (aggregateQuestion UID_FINAL_REFERENCE q lex sem).tier =
      ConfidenceTier.override ∧
    (aggregateQuestion UID_FINAL_REFERENCE q lex sem).finalUid = some uid := by
  unfold aggregateQuestion
  rw [h]
  exact ⟨rfl, rfl⟩

/-- Witness for C1: the raw text "What is your gender?" is an override
key (uid 233); even with a lexical candidate of score 0 the tier is
`Override` and the final uid is 233. -/
theorem c1_override_precedence_witness :
    lookupOverride UID_FINAL_REFERENCE "What is your gender?" = some 233 ∧
    (aggregateQuestion UID_FINAL_REFERENCE ⟨"What is your gender?", false⟩
      (some ⟨99, "unrelated heading", 0⟩) none).tier =
        ConfidenceTier.override ∧
    (aggregateQuestion UID_FINAL_REFERENCE ⟨"What is your gender?", false⟩
      (some ⟨99, "unrelated heading", 0⟩) none).finalUid = some 233 :=
  ⟨by decide,
   (c1_override_precedence ⟨"What is your gender?", false⟩
     (some ⟨99, "unrelated heading", 0⟩) none 233 (by decide)).1,
   (c1_override_precedence ⟨"What is your gender?", false⟩
     (some ⟨99, "unrelated heading", 0⟩) none 233 (by decide)).2⟩

/-- Claim C4: for every question processed by the (modelled) aggregator,
exactly one confidence tier is assigned (the `tier` field of the single
`MatchResult`), and `final_uid` is non-null iff the tier is not `None`. -/
theorem c4_uid_iff_tier (ov : List (String × Nat)) (q : Question)
    (lex sem : Option BestMatch) :
    (aggregateQuestion ov q lex sem).finalUid ≠ none ↔
      (aggregateQuestion ov q lex sem).tier ≠ ConfidenceTier.noneTier := by
  unfold aggregateQuestion aggregateScores semanticDecision
  cases lookupOverride ov q.text with
  | some uid => simp
  | none =>
    cases lex with
    | some c =>
      cases sem with
      | some d =>
        dsimp only
        split_ifs <;> simp
      | none =>
        dsimp only
        split_ifs <;> simp
    | none =>
      cases sem with
      | some d =>
        dsimp only
        split_ifs <;> simp
      | none => simp

/-- Claim C5 counterexample: the code keeps the regex class `\w`
(which includes the underscore) while the claim's composition strips
everything outside alphanumerics and whitespace, so the two differ on
the input "ab_cd". -/
theorem c5_counterexample :
    enhanced_normalizeStr "ab_cd" = "ab_cd" ∧
    claimNormalizeSteps "ab_cd" = "abcd" ∧
    enhanced_normalizeStr "ab_cd" ≠ claimNormalizeSteps "ab_cd" :=
  ⟨by decide, by decide, by decide⟩

/-- Claim C5 (amended): for every string input, `enhanced_normalize`
equals the composition of the claimed steps with the character-stripping
step amended to keep word characters (alphanumerics plus underscore)
rather than bare alphanumerics.  (The code's additional trim of
surrounding whitespace is proved invisible to the remaining steps, so no
further amendment is needed.) -/
theorem c5_normalize_steps (s : String) :
    enhanced_normalizeStr s = amendedNormalizeSteps s :=
  enhanced_normalize_eq_amended s

/-- Claim C6: normalization never raises — the `try` body always
returns `Except.ok` (every step is total), and every non-string input
yields the empty string. -/
theorem c6_normalize_total :
    (∀ s : String, normalizeBody s = Except.ok (enhanced_normalizeStr s)) ∧
    (∀ n : Int, enhanced_normalize (PyValue.intV n) = "") ∧
    enhanced_normalize PyValue.noneV = "" ∧
    (∀ xs : List String, enhanced_normalize (PyValue.listV xs) = "") :=
  ⟨fun _ => rfl, fun _ => rfl, rfl, fun _ => rfl⟩

/-- Claim C7 counterexample: normalization is not idempotent.  On
"identity? type!" the first pass strips the punctuation that separated
"identity" from "type", producing "identity type"; a second pass then
fires the synonym entry "identity type" to "id type" and drops the
now-short token "id", yielding "type". -/
theorem c7_counterexample :
    enhanced_normalizeStr "identity? type!" = "identity type" ∧
    enhanced_normalizeStr (enhanced_normalizeStr "identity? type!") = "type" ∧
    enhanced_normalizeStr (enhanced_normalizeStr "identity? type!") ≠
      enhanced_normalizeStr "identity? type!" :=
  ⟨by decide, by decide, by decide⟩

/-- Claim C7 (amended): normalization is idempotent on every text whose
normalized form contains no synonym-table key as a substring (the
counterexample shows the restriction is necessary: a first pass may
create a fresh key occurrence by deleting punctuation). -/
theorem c7_idempotent_of_no_key (x : String)
    (h : ∀ kv ∈ ENHANCED_SYNONYM_MAP,
      containsSub kv.1.toList (enhanced_normalizeStr x).toList = false) :
    enhanced_normalizeStr (enhanced_normalizeStr x) = enhanced_normalizeStr x :=
  normalize_idem_of_no_key x h

/-- Witness for C7: no synonym key occurs in the normalized form of
"What is your gender?" (which is "gender"), and normalization is indeed
idempotent there. -/
theorem c7_idempotent_witness :
    (∀ kv ∈ ENHANCED_SYNONYM_MAP, containsSub kv.1.toList
      (enhanced_normalizeStr "What is your gender?").toList = false) ∧
    enhanced_normalizeStr (enhanced_normalizeStr "What is your gender?") =
      enhanced_normalizeStr "What is your gender?" :=
  ⟨by decide, c7_idempotent_of_no_key "What is your gender?" (by decide)⟩

/-- Claim C10: `get_question_bank` returns an empty DataFrame when the
engine is unconfigured and when the query raises, and never raises
itself (it is a total function); the error results coincide with the
result of a successful query over an empty bank, so the caller cannot
distinguish the cases from the return value. -/
theorem c10_question_bank_error_swallow :
    (∀ qr : Except String (List QBRow), get_question_bank false qr = []) ∧
    (∀ e : String, get_question_bank true (Except.error e) = []) ∧
    get_question_bank true (Except.ok []) = [] ∧
    (∀ (e : String) (qr : Except String (List QBRow)),
      get_question_bank true (Except.error e) = get_question_bank false qr ∧
      get_question_bank true (Except.error e) =
        get_question_bank true (Except.ok [])) :=
  ⟨fun _ => rfl, fun _ => rfl, rfl, fun _ _ => ⟨rfl, rfl⟩⟩

/-- Claim C2: for a question not hit by the override table and not
subject to heading thresholds (text length at most 50), the rules are
evaluated in strict precedence order with inclusive boundaries:
lexical score at least 0.60 gives `HighLexical` with the lexical uid;
otherwise at least 0.50 gives `LowLexical` with the same uid; otherwise
semantic score at least 0.60 gives `Semantic` with the semantic uid;
otherwise tier `None` and no uid. -/
theorem c2_threshold_precedence (ov : List (String × Nat)) (q : Question)
    (lex sem : Option BestMatch)
    (hov : lookupOverride ov q.text = none)
    (hlen : q.text.length ≤ HEADING_LENGTH_THRESHOLD) :
    (∀ c, lex = some c → TFIDF_HIGH_CONFIDENCE ≤ c.score →
      (aggregateQuestion ov q lex sem).tier = ConfidenceTier.highLexical ∧
      (aggregateQuestion ov q lex sem).finalUid = some c.uid) ∧
    (∀ c, lex = some c → c.score < TFIDF_HIGH_CONFIDENCE →
      TFIDF_LOW_CONFIDENCE ≤ c.score →
      (aggregateQuestion ov q lex sem).tier = ConfidenceTier.lowLexical ∧
      (aggregateQuestion ov q lex sem).finalUid = some c.uid) ∧
    (∀ d, sem = some d → (∀ c, lex = some c → c.score < TFIDF_LOW_CONFIDENCE) →
      SEMANTIC_THRESHOLD ≤ d.score →
      (aggregateQuestion ov q lex sem).tier = ConfidenceTier.semanticTier ∧
      (aggregateQuestion ov q lex sem).finalUid = some d.uid) ∧
    ((∀ c, lex = some c → c.score < TFIDF_LOW_CONFIDENCE) →
      (∀ d, sem = some d → d.score < SEMANTIC_THRESHOLD) →
      (aggregateQuestion ov q lex sem).tier = ConfidenceTier.noneTier ∧
      (aggregateQuestion ov q lex sem).finalUid = none) := by
  have hlex : lexThresholdFor q = TFIDF_HIGH_CONFIDENCE := by
    unfold lexThresholdFor
    rw [if_neg (by omega)]
  have hsem : semThresholdFor q = SEMANTIC_THRESHOLD := by
    unfold semThresholdFor
    rw [if_neg (by omega)]
  unfold aggregateQuestion
  rw [hov, hlex, hsem]
  have hlowhigh : TFIDF_LOW_CONFIDENCE ≤ TFIDF_HIGH_CONFIDENCE := by
    unfold TFIDF_LOW_CONFIDENCE TFIDF_HIGH_CONFIDENCE
    norm_num
  refine ⟨?_, ?_, ?_, ?_⟩
  · intro c hc hscore
    subst hc
    unfold aggregateScores
    dsimp only
    rw [if_pos hscore]
    exact ⟨rfl, rfl⟩
  · intro c hc h1 h2
    subst hc
    unfold aggregateScores
    dsimp only
    rw [if_neg (not_le.mpr h1), if_pos h2]
    exact ⟨rfl, rfl⟩
  · intro d hd hlow hs
    subst hd
    cases lex with
    | none =>
      unfold aggregateScores semanticDecision
      dsimp only
      rw [if_pos hs]
      exact ⟨rfl, rfl⟩
    | some c =>
      have hc := hlow c rfl
      unfold aggregateScores semanticDecision
      dsimp only
      rw [if_neg (not_le.mpr (lt_of_lt_of_le hc hlowhigh)),
        if_neg (not_le.mpr hc), if_pos hs]
      exact ⟨rfl, rfl⟩
  · intro hlow hsemlow
    cases lex with
    | none =>
      cases sem with
      | none => exact ⟨rfl, rfl⟩
      | some d =>
        have hd := hsemlow d rfl
        unfold aggregateScores semanticDecision
        dsimp only
        rw [if_neg (not_le.mpr hd)]
        exact ⟨rfl, rfl⟩
    | some c =>
      have hc := hlow c rfl
      cases sem with
      | none =>
        unfold aggregateScores semanticDecision
        dsimp only
        rw [if_neg (not_le.mpr (lt_of_lt_of_le hc hlowhigh)),
          if_neg (not_le.mpr hc)]
        exact ⟨rfl, rfl⟩
      | some d =>
        have hd := hsemlow d rfl
        unfold aggregateScores semanticDecision
        dsimp only
        rw [if_neg (not_le.mpr (lt_of_lt_of_le hc hlowhigh)),
          if_neg (not_le.mpr hc), if_neg (not_le.mpr hd)]
        exact ⟨rfl, rfl⟩

/-- Witness for C2: a short non-override question with lexical score
exactly 0.60 (the inclusive boundary) gets tier `HighLexical` with the
lexical candidate's uid. -/
theorem c2_threshold_precedence_witness :
    lookupOverride UID_FINAL_REFERENCE "short text" = none ∧
    "short text".length ≤ HEADING_LENGTH_THRESHOLD ∧
    (aggregateQuestion UID_FINAL_REFERENCE ⟨"short text", false⟩
      (some ⟨7, "heading a", 3/5⟩) none).tier = ConfidenceTier.highLexical ∧
    (aggregateQuestion UID_FINAL_REFERENCE ⟨"short text", false⟩
      (some ⟨7, "heading a", 3/5⟩) none).finalUid = some 7 := by
  refine ⟨by decide, by decide, ?_⟩
  have h := (c2_threshold_precedence UID_FINAL_REFERENCE ⟨"short text", false⟩
    (some ⟨7, "heading a", 3/5⟩) none (by decide) (by decide)).1
    ⟨7, "heading a", 3/5⟩ rfl (le_refl _)
  exact h

/-- Claim C3: the thresholds the aggregator applies to one question are
selected purely by text length: strictly more than 50 characters gives
the heading pair (0.55 lexical, 0.65 semantic), otherwise the default
pair (0.60, 0.60); both substitutions happen together, and the
non-override decision is exactly the threshold-rule evaluation at those
two thresholds. -/
theorem c3_heading_thresholds (q : Question) :
    ((HEADING_LENGTH_THRESHOLD < q.text.length →
        lexThresholdFor q = HEADING_TFIDF_THRESHOLD ∧
        semThresholdFor q = HEADING_SEMANTIC_THRESHOLD) ∧
      (q.text.length ≤ HEADING_LENGTH_THRESHOLD →
        lexThresholdFor q = TFIDF_HIGH_CONFIDENCE ∧
        semThresholdFor q = SEMANTIC_THRESHOLD)) ∧
    (∀ q' : Question, q'.text.length = q.text.length →
      lexThresholdFor q' = lexThresholdFor q ∧
      semThresholdFor q' = semThresholdFor q) ∧
    (∀ ov lex sem, lookupOverride ov q.text = none →
      aggregateQuestion ov q lex sem =
        aggregateScores (lexThresholdFor q) TFIDF_LOW_CONFIDENCE
          (semThresholdFor q) lex sem) := by
  refine ⟨⟨?_, ?_⟩, ?_, ?_⟩
  · intro h
    unfold lexThresholdFor semThresholdFor
    rw [if_pos h, if_pos h]
    exact ⟨rfl, rfl⟩
  · intro h
    unfold lexThresholdFor semThresholdFor
    rw [if_neg (by omega), if_neg (by omega)]
    exact ⟨rfl, rfl⟩
  · intro q' hq
    unfold lexThresholdFor semThresholdFor
    rw [hq]
    exact ⟨rfl, rfl⟩
  · intro ov lex sem hov
    unfold aggregateQuestion
    rw [hov]

/-- Witness for C3: a 51-character text selects the heading thresholds
and a 50-character text selects the default thresholds. -/
theorem c3_heading_thresholds_witness :
    "This question heading text is long enough to exceed".length = 51 ∧
    "This question heading text is exactly fifty chars!".length = 50 ∧
    lexThresholdFor
      ⟨"This question heading text is long enough to exceed", false⟩ =
        HEADING_TFIDF_THRESHOLD ∧
    semThresholdFor
      ⟨"This question heading text is long enough to exceed", false⟩ =
        HEADING_SEMANTIC_THRESHOLD ∧
    lexThresholdFor
      ⟨"This question heading text is exactly fifty chars!", false⟩ =
        TFIDF_HIGH_CONFIDENCE ∧
    semThresholdFor
      ⟨"This question heading text is exactly fifty chars!", false⟩ =
        SEMANTIC_THRESHOLD :=
  ⟨by decide, by decide,
   ((c3_heading_thresholds
     ⟨"This question heading text is long enough to exceed", false⟩).1.1
       (by decide)).1,
   ((c3_heading_thresholds
     ⟨"This question heading text is long enough to exceed", false⟩).1.1
       (by decide)).2,
   ((c3_heading_thresholds
     ⟨"This question heading text is exactly fifty chars!", false⟩).1.2
       (by decide)).1,
   ((c3_heading_thresholds
     ⟨"This question heading text is exactly fifty chars!", false⟩).1.2
       (by decide)).2⟩

/-- Claim C8: the categorizer evaluates the three taxonomies
independently; within a taxonomy it tests the declared (category,
keywords) list in order against the lower-cased title, returns the first
category with a keyword-substring hit, and the taxonomy default when no
category matches — so a title matching two categories always gets the
one declared first. -/
theorem c8_categorizer (title : String) (tbl : List (String × List String))
    (dflt : String) :
    categorize_survey_by_ami_structure title =
      (firstMatching SURVEY_STAGES "Other" title,
       firstMatching RESPONDENT_TYPES "Unclassified" title,
       firstMatching PROGRAMMES "Unclassified" title) ∧
    (∀ pre p post, tbl = pre ++ p :: post →
      p.2.any (fun kw => strContains (lowerStr title) kw) = true →
      (∀ x ∈ pre, x.2.any (fun kw => strContains (lowerStr title) kw) = false) →
      firstMatching tbl dflt title = p.1) ∧
    ((∀ p ∈ tbl, p.2.any (fun kw => strContains (lowerStr title) kw) = false) →
      firstMatching tbl dflt title = dflt) := by
  refine ⟨rfl, ?_, ?_⟩
  · intro pre p post htbl hp hpre
    unfold firstMatching
    rw [htbl, find?_append_false _ hpre, List.find?_cons]
    simp only [hp]
  · intro hall
    unfold firstMatching
    rw [List.find?_eq_none.mpr (fun x hx => by simp [hall x hx])]

/-- Witness for C8: the title "Pulse check review" matches the keywords
of both "Pulse Check Survey" (4th stage) and "Progress Review Survey"
(5th stage); the categorizer returns the one declared first, after the
first three stages all fail. -/
theorem c8_categorizer_witness :
    (SURVEY_STAGES = SURVEY_STAGES.take 3 ++
      ("Pulse Check Survey", ["pulse", "check-in", "checkin", "pulse check"]) ::
        SURVEY_STAGES.drop 4) ∧
    ("Pulse Check Survey",
        ["pulse", "check-in", "checkin", "pulse check"]).2.any
      (fun kw => strContains (lowerStr "Pulse check review") kw) = true ∧
    (∀ x ∈ SURVEY_STAGES.take 3,
      x.2.any (fun kw => strContains (lowerStr "Pulse check review") kw) =
        false) ∧
    ("Progress Review Survey", ["progress", "review", "assessment",
        "evaluation", "mid-point", "checkpoint", "interim"]).2.any
      (fun kw => strContains (lowerStr "Pulse check review") kw) = true ∧
    firstMatching SURVEY_STAGES "Other" "Pulse check review" =
      "Pulse Check Survey" :=
  ⟨by decide, by decide, by decide, by decide,
   (c8_categorizer "Pulse check review" SURVEY_STAGES "Other").2.1
     (SURVEY_STAGES.take 3)
     ("Pulse Check Survey", ["pulse", "check-in", "checkin", "pulse check"])
     (SURVEY_STAGES.drop 4) (by decide) (by decide) (by decide)⟩

/-- Claim C9: the identity detector tests the fixed identity keyword
list against the normalized text and reports the first phrase occurring
as a substring (with `contains_identity_info` its defined-ness); a text
containing "email address" is flagged with label "email", and a text
with no identity keyword yields `(false, none)`. -/
theorem c9_identity_detector (text : String) (kw : String) :
    contains_identity_info text = (determine_identity_type text).isSome ∧
    (determine_identity_type text = some kw →
      strContains (enhanced_normalizeStr text) kw = true ∧
      ∃ pre post, IDENTITY_TYPES = pre ++ kw :: post ∧
        ∀ x ∈ pre, strContains (enhanced_normalizeStr text) x = false) ∧
    ((∀ x ∈ IDENTITY_TYPES,
        strContains (enhanced_normalizeStr text) x = false) →
      determine_identity_type text = none ∧
      contains_identity_info text = false) ∧
    (determine_identity_type "What is your email address?" = some "email" ∧
      contains_identity_info "What is your email address?" = true ∧
      determine_identity_type "completely unrelated text string" = none ∧
      contains_identity_info "completely unrelated text string" = false) := by
  refine ⟨rfl, ?_, ?_, by decide, by decide, by decide, by decide⟩
  · intro h
    obtain ⟨hP, pre, post, hl, hpre⟩ := find?_some_decomp h
    exact ⟨hP, pre, post, hl, hpre⟩
  · intro hall
    have hnone : determine_identity_type text = none :=
      List.find?_eq_none.mpr (fun x hx => by simp [hall x hx])
    refine ⟨hnone, ?_⟩
    unfold contains_identity_info
    rw [hnone]
    rfl

/-- Witness for C9: the first-match decomposition instantiated at the
text "What is your email address?" and the label "email". -/
theorem c9_identity_detector_witness :
    determine_identity_type "What is your email address?" = some "email" ∧
    (strContains (enhanced_normalizeStr "What is your email address?")
        "email" = true ∧
      ∃ pre post, IDENTITY_TYPES = pre ++ "email" :: post ∧
        ∀ x ∈ pre, strContains
          (enhanced_normalizeStr "What is your email address?") x = false) :=
  ⟨by decide,
   (c9_identity_detector "What is your email address?" "email").2.1
     (by decide)⟩

end UidMatcher
